import Mathlib

/-!
Verification of `pyrevitlib/pyrevit/coreutils/appdata.py` (pyRevit).

The module manages the pyRevit application data directories.  We embed the
module shallowly: the two base directories become an explicit state record
holding the (optional) directory listings, Python string operations become
executable functions over `String`/`List Char`, and the cleanup regular
expression `(.+)_(.+)_(.+)_(\d+).+` is embedded as a backtracking matcher
specialised to that pattern, following Python `re` semantics (leftmost
match, greedy quantifiers, `.` matching every character except newline,
`findall` returning the tuple of the four groups for each match; the code
only consumes the first match's fourth group).
-/

/-- Temporary-file extension constant, from the source: `TEMP_FILE_EXT = 'tmp'`. -/
def TEMP_FILE_EXT : String := "tmp"

/-- Modelled from the spec: the universal appdata directory `PYREVIT_APP_DIR`
(`D_universal`) is imported from the `pyrevit` package, which is not part of
the sources under verification; it is an opaque path supplied by the host. -/
def PYREVIT_APP_DIR : String := "D_universal"

/-- Modelled from the spec: the version-specific appdata directory
`PYREVIT_VERSION_APP_DIR` (`D_version`) is imported from the `pyrevit`
package, which is not part of the sources under verification. -/
def PYREVIT_VERSION_APP_DIR : String := "D_version"

/-- Modelled from the spec: `PYREVIT_FILE_PREFIX_UNIVERSAL` is imported from
the `pyrevit` package (not in the sources).  The module docstring example
`pyrevit_eirannejad_file_id.file_ext` for `get_universal_data_file` fixes its
shape: the addon name and the user name, without a host version. -/
def PYREVIT_FILE_PREFIX_UNIVERSAL : String := "pyrevit_eirannejad"

/-- Modelled from the spec: `PYREVIT_FILE_PREFIX` is imported from the
`pyrevit` package (not in the sources).  The module docstring example
`pyrevit_2016_eirannejad_file_id.file_ext` for `get_data_file` fixes its
shape: addon name, host version, user name. -/
def PYREVIT_FILE_PREFIX : String := "pyrevit_2016_eirannejad"

/-- Modelled from the spec: `PYREVIT_FILE_PREFIX_STAMPED` is imported from
the `pyrevit` package (not in the sources).  The module docstring example
`pyrevit_2016_eirannejad_2353_file_id.file_ext` for `get_instance_data_file`
fixes its shape: the version-shared prefix followed by the instance stamp. -/
def PYREVIT_FILE_PREFIX_STAMPED : String := "pyrevit_2016_eirannejad_2353"

/-- Error value standing for the `FileNotFoundError` (or `OSError`) that
`os.listdir` raises on a missing directory. -/
def FILE_NOT_FOUND : String := "FileNotFoundError"

/-- Python `str.startswith`: the candidate text starts with the given text. -/
def py_startswith (s tag : String) : Bool :=
  List.isPrefixOf tag.toList s.toList

/-- Python `str.endswith`: the candidate text ends with the given text. -/
def py_endswith (s tag : String) : Bool :=
  List.isSuffixOf tag.toList s.toList

/-- Python substring membership `needle in hay` on character lists. -/
def py_contains (needle : List Char) : List Char → Bool
  | [] => needle.isEmpty
  | c :: t => List.isPrefixOf needle (c :: t) || py_contains needle t

/-- Python `os.path.join` for one directory and one file name. -/
def os_path_join (dir name : String) : String := dir ++ "/" ++ name

/-- The appdata state: listings (sets of plain file names) of the two base
directories.  `none` models a directory that does not exist, on which
`os.listdir` raises. -/
structure AppDataState where
  univ_dir : Option (List String)
  ver_dir : Option (List String)
deriving Repr, DecidableEq

/-- Python `os.remove` on a file name within one directory listing: deletes
the entry if present, raises (`Except.error`) otherwise. -/
def os_remove (path : String) (files : List String) : Except String (List String) :=
  if path ∈ files then Except.ok (files.erase path) else Except.error FILE_NOT_FOUND

/-- Source `_remove_app_file`: calls `os.remove` inside `try`, logging and
swallowing every exception, so the function always completes; on failure the
directory is left unchanged. -/
def _remove_app_file (path : String) (files : List String) : List String :=
  ((os_remove path files).toOption).getD files

/-- Source `_list_app_files`: picks the universal or the version directory,
iterates `os.listdir` (which raises when the directory is missing — there is
no `try` around it) and keeps entries that start with the given tag and end
with `file_ext` (note: `file_ext` itself, with no dot prepended), joining
each kept name with the directory path. -/
def _list_app_files (tag file_ext : String) (universal : Bool)
    (st : AppDataState) : Except String (List String) :=
  let folder_path := if universal then PYREVIT_APP_DIR else PYREVIT_VERSION_APP_DIR
  let folder := if universal then st.univ_dir else st.ver_dir
  match folder with
  | none => Except.error FILE_NOT_FOUND
  | some files =>
      Except.ok ((files.filter
        (fun f => py_startswith f tag && py_endswith f file_ext)).map
          (os_path_join folder_path))

/-- Source `_get_app_file`: folder and file tag default to the version
directory and version-shared tag; `stamped` selects the stamped tag (folder
stays the version directory); otherwise `universal` selects the universal
folder and tag.  Renders `file_prefix ++ "_" ++ file_id ++ "." ++ file_ext`
and either returns the name or joins it with the folder. -/
def _get_app_file (file_id file_ext : String)
    (filename_only stamped universal : Bool) : String :=
  let appdata_folder :=
    if stamped then PYREVIT_VERSION_APP_DIR
    else if universal then PYREVIT_APP_DIR
    else PYREVIT_VERSION_APP_DIR
  let file_tag :=
    if stamped then PYREVIT_FILE_PREFIX_STAMPED
    else if universal then PYREVIT_FILE_PREFIX_UNIVERSAL
    else PYREVIT_FILE_PREFIX
  let full_filename := file_tag ++ "_" ++ file_id ++ "." ++ file_ext
  if filename_only then full_filename
  else os_path_join appdata_folder full_filename

/-- Source `get_universal_data_file`. -/
def get_universal_data_file (file_id file_ext : String) (name_only : Bool) : String :=
  _get_app_file file_id file_ext name_only false true

/-- Source `get_data_file`. -/
def get_data_file (file_id file_ext : String) (name_only : Bool) : String :=
  _get_app_file file_id file_ext name_only false false

/-- Source `get_instance_data_file`. -/
def get_instance_data_file (file_id file_ext : String) (name_only : Bool) : String :=
  _get_app_file file_id file_ext name_only true false

/-- Source `is_pyrevit_data_file`: `PYREVIT_FILE_PREFIX in file_name`. -/
def is_pyrevit_data_file (file_name : String) : Bool :=
  py_contains PYREVIT_FILE_PREFIX.toList file_name.toList

/-- Source `list_data_files`: lists with the version-shared tag
`PYREVIT_FILE_PREFIX`, in the directory selected by `universal`. -/
def list_data_files (file_ext : String) (universal : Bool)
    (st : AppDataState) : Except String (List String) :=
  _list_app_files PYREVIT_FILE_PREFIX file_ext universal st

/-- Source `list_session_data_files`: lists with the stamped tag in the
version directory. -/
def list_session_data_files (file_ext : String)
    (st : AppDataState) : Except String (List String) :=
  _list_app_files PYREVIT_FILE_PREFIX_STAMPED file_ext false st

/-- Source `garbage_data_file`: removes the file immediately. -/
def garbage_data_file (path : String) (files : List String) : List String :=
  _remove_app_file path files

/-- Python `re` `.` metacharacter: matches every character except newline. -/
def dotOk (c : Char) : Bool := !(c == '\n')

/-- Python `re` `\d` on file names (ASCII decimal digits). -/
def isDigitCh (c : Char) : Bool := c.isDigit

/-- Tail of the pattern `(.+)_(.+)_(.+)_(\d+).+` after its third underscore:
`(\d+).+` with greedy `\d+`.  The maximal digit run is tried first; if no
character usable by `.+` follows it, `\d+` backtracks by one digit.  Returns
the characters captured by the fourth group, or `none` when there is no
match here. -/
def matchP3 (l : List Char) : Option (List Char) :=
  let d := l.takeWhile isDigitCh
  let r := l.dropWhile isDigitCh
  if d.isEmpty then none
  else if r.isEmpty then (if 2 ≤ d.length then some d.dropLast else none)
  else if dotOk (r.headD 'a') then some d
  else if 2 ≤ d.length then some d.dropLast else none

/-- Backtracking over one `(.+)_` piece of the pattern: try the underscore
at position `n`, then `n - 1`, ... down to 1 (greedy `.+` means the longest
candidate group, i.e. the rightmost underscore, is tried first; position 0
is excluded because `.+` needs at least one character), requiring the
candidate group to contain no newline, and continue with `cont` on the text
after the underscore. -/
def trySplit (cont : List Char → Option (List Char)) (l : List Char) :
    Nat → Option (List Char)
  | 0 => none
  | n + 1 =>
      let cand :=
        if (l.getD (n + 1) 'a' == '_') && (l.take (n + 1)).all dotOk then
          cont (l.drop (n + 2))
        else none
      if cand.isSome then cand else trySplit cont l n

/-- The pattern from the third group on: `(.+)_(\d+).+`. -/
def matchP2 (l : List Char) : Option (List Char) :=
  trySplit matchP3 l l.length

/-- The pattern from the second group on: `(.+)_(.+)_(\d+).+`. -/
def matchP1 (l : List Char) : Option (List Char) :=
  trySplit matchP2 l l.length

/-- The whole pattern `(.+)_(.+)_(.+)_(\d+).+` anchored at the head of `l`. -/
def matchP0 (l : List Char) : Option (List Char) :=
  trySplit matchP1 l l.length

/-- First match of the pattern in `l` (Python `findall` scans left to
right, so the first tuple it returns comes from the leftmost match):
returns the fourth group of that match. -/
def findFrom : List Char → Option (List Char)
  | [] => matchP0 []
  | c :: t =>
      if (matchP0 (c :: t)).isSome then matchP0 (c :: t) else findFrom t

/-- Python `int` on a digit-only string. -/
def digitsVal (d : List Char) : Nat :=
  d.foldl (fun a c => 10 * a + (c.toNat - 48)) 0

/-- The per-entry condition of `cleanup_appdata_folder`: the regex finds a
match (`file_name_pieces` truthy; each tuple always has 4 entries so the
length test always passes), the first match's fourth group converts to an
integer greater than zero, and the entry ends with `TEMP_FILE_EXT` (the
bare characters `tmp` — the source does not prepend a dot). -/
def shouldSweep (name : String) : Bool :=
  (findFrom name.toList).isSome &&
    decide (0 < digitsVal ((findFrom name.toList).getD [])) &&
    py_endswith name TEMP_FILE_EXT

/-- Loop body of `cleanup_appdata_folder`: remove the entry (best-effort)
when it satisfies the sweep condition. -/
def sweepStep (fs : List String) (f : String) : List String :=
  if shouldSweep f then _remove_app_file f fs else fs

/-- Source `cleanup_appdata_folder`: when `EXEC_PARAMS.first_load` holds,
iterate over the `os.listdir` snapshot of the version directory (raising if
it is missing) and best-effort remove every entry matching the sweep
condition; the universal directory is never touched.  With the first-load
signal false, nothing happens. -/
def cleanup_appdata_folder (first_load : Bool) (st : AppDataState) :
    Except String AppDataState :=
  if first_load then
    match st.ver_dir with
    | none => Except.error FILE_NOT_FOUND
    | some files =>
        Except.ok { st with ver_dir := some (files.foldl sweepStep files) }
  else Except.ok st

/-- Scope of an appdata file, from the spec's data model: `Universal`,
`VersionShared`, or `Instance`. -/
inductive Scope
  | Universal
  | VersionShared
  | Instance
deriving Repr, DecidableEq

/-- The `stamped` flag `_get_app_file` receives for each scope. -/
def scope_stamped : Scope → Bool
  | Scope.Instance => true
  | _ => false

/-- The `universal` flag `_get_app_file` receives for each scope. -/
def scope_universal : Scope → Bool
  | Scope.Universal => true
  | _ => false

/-- Spec `resolve_directory`: `D_universal` for `Universal`, `D_version`
for `VersionShared` and `Instance`. -/
def resolve_directory : Scope → String
  | Scope.Universal => PYREVIT_APP_DIR
  | _ => PYREVIT_VERSION_APP_DIR

/-- The fixed file-tag literal of each scope. -/
def scope_tag : Scope → String
  | Scope.Universal => PYREVIT_FILE_PREFIX_UNIVERSAL
  | Scope.VersionShared => PYREVIT_FILE_PREFIX
  | Scope.Instance => PYREVIT_FILE_PREFIX_STAMPED

/-- Spec `build_name`, realised by the source's `_get_app_file` with the
scope translated to its `stamped` / `universal` flags. -/
def build_name (s : Scope) (file_id file_ext : String) (name_only : Bool) : String :=
  _get_app_file file_id file_ext name_only (scope_stamped s) (scope_universal s)

/-- Fourth-group tail shape of the pattern: `(\d+).+` — a nonempty run of
digits followed by at least one non-newline character (and then anything). -/
def ShapeP3 (l : List Char) : Prop :=
  ∃ d ch rest, l = d ++ ch :: rest ∧ d ≠ [] ∧
    d.all isDigitCh = true ∧ dotOk ch = true

/-- Shape of `(.+)_(\d+).+`: a nonempty newline-free group, an underscore,
then `ShapeP3`. -/
def ShapeP2 (l : List Char) : Prop :=
  ∃ c rest, l = c ++ '_' :: rest ∧ c ≠ [] ∧ c.all dotOk = true ∧ ShapeP3 rest

/-- Shape of `(.+)_(.+)_(\d+).+`. -/
def ShapeP1 (l : List Char) : Prop :=
  ∃ b rest, l = b ++ '_' :: rest ∧ b ≠ [] ∧ b.all dotOk = true ∧ ShapeP2 rest

/-- Shape of the full pattern `(.+)_(.+)_(.+)_(\d+).+` at the head of `l`. -/
def ShapeP0 (l : List Char) : Prop :=
  ∃ a rest, l = a ++ '_' :: rest ∧ a ≠ [] ∧ a.all dotOk = true ∧ ShapeP1 rest

/-- The 4-part orphan pattern occurs somewhere in `l` (unanchored search):
some position starts a text of shape group1_group2_group3_digits followed
by at least one more character, each group nonempty and newline-free. -/
def HasOrphanShape (l : List Char) : Prop :=
  ∃ pre rest, l = pre ++ rest ∧ ShapeP0 rest

lemma all_takeWhile (p : Char → Bool) (l : List Char) :
    (l.takeWhile p).all p = true := by
  induction l with
  | nil => rfl
  | cons c t ih =>
      cases hpc : p c with
      | false => simp [List.takeWhile_cons, hpc]
      | true => simp [List.takeWhile_cons, hpc, ih]

lemma takeWhile_append_all (p : Char → Bool) (d : List Char) :
    ∀ m : List Char, d.all p = true → (d ++ m).takeWhile p = d ++ m.takeWhile p := by
  induction d with
  | nil => intro m _; rfl
  | cons c t ih =>
      intro m h
      simp only [List.all_cons, Bool.and_eq_true] at h
      obtain ⟨h1, h2⟩ := h
      simp [List.takeWhile_cons, h1, ih m h2]

lemma dropWhile_append_all (p : Char → Bool) (d : List Char) :
    ∀ m : List Char, d.all p = true → (d ++ m).dropWhile p = m.dropWhile p := by
  induction d with
  | nil => intro m _; rfl
  | cons c t ih =>
      intro m h
      simp only [List.all_cons, Bool.and_eq_true] at h
      obtain ⟨h1, h2⟩ := h
      simp [List.dropWhile_cons, h1, ih m h2]

lemma dropWhile_head_false (p : Char → Bool) (l : List Char) :
    ∀ c r, l.dropWhile p = c :: r → p c = false := by
  induction l with
  | nil => intro c r h; cases h
  | cons a t ih =>
      intro c r h
      rw [List.dropWhile_cons] at h
      cases hpa : p a
      · rw [hpa] at h
        simp only [Bool.false_eq_true, if_false] at h
        cases h
        exact hpa
      · rw [hpa] at h
        simp only [if_true] at h
        exact ih c r h

lemma digit_dotOk {c : Char} (h : isDigitCh c = true) : dotOk c = true := by
  by_cases hc : c = '\n'
  · subst hc
    exact absurd h (by decide)
  · unfold dotOk
    simp [hc]

lemma all_dropLast {p : Char → Bool} {l : List Char} (h : l.all p = true) :
    l.dropLast.all p = true := by
  rw [List.all_eq_true] at h ⊢
  intro x hx
  exact h x ((List.dropLast_sublist _).subset hx)

lemma matchP3_shape {l : List Char} (h : (matchP3 l).isSome = true) : ShapeP3 l := by
  simp only [matchP3] at h
  have hlr : l.takeWhile isDigitCh ++ l.dropWhile isDigitCh = l :=
    List.takeWhile_append_dropWhile isDigitCh l
  have htall : (l.takeWhile isDigitCh).all isDigitCh = true := all_takeWhile _ _
  have hrhead : ∀ c r2, l.dropWhile isDigitCh = c :: r2 → isDigitCh c = false :=
    fun c r2 hcr => dropWhile_head_false _ _ c r2 hcr
  revert h hlr htall hrhead
  generalize l.takeWhile isDigitCh = t
  generalize l.dropWhile isDigitCh = r
  intro h hlr htall hrhead
  subst hlr
  by_cases he : t.isEmpty = true
  · rw [if_pos he] at h
    cases h
  · rw [if_neg he] at h
    have htne : t ≠ [] := by
      intro hnil
      rw [hnil] at he
      exact he rfl
    rcases List.eq_nil_or_concat t with h0 | ⟨ys, y, hty⟩
    · exact absurd h0 htne
    rw [List.concat_eq_append] at hty
    have hys : ys.all isDigitCh = true ∧ isDigitCh y = true := by
      rw [hty, List.all_append] at htall
      simp only [Bool.and_eq_true] at htall
      refine ⟨htall.1, ?_⟩
      have := htall.2
      simpa using this
    cases r with
    | nil =>
        rw [if_pos List.isEmpty_nil] at h
        by_cases hlen : 2 ≤ t.length
        · have hys1 : ys ≠ [] := by
            intro h0
            rw [hty, h0] at hlen
            simp at hlen
          refine ⟨ys, y, [], ?_, hys1, hys.1, digit_dotOk hys.2⟩
          rw [hty, List.append_nil]
        · rw [if_neg hlen] at h
          cases h
    | cons c r2 =>
        rw [if_neg (by simp)] at h
        rw [List.headD_cons] at h
        have hpc : isDigitCh c = false := hrhead c r2 rfl
        by_cases hdot : dotOk c = true
        · exact ⟨t, c, r2, rfl, htne, htall, hdot⟩
        · rw [if_neg hdot] at h
          by_cases hlen : 2 ≤ t.length
          · have hys1 : ys ≠ [] := by
              intro h0
              rw [hty, h0] at hlen
              simp at hlen
            refine ⟨ys, y, c :: r2, ?_, hys1, hys.1, digit_dotOk hys.2⟩
            rw [hty]
            simp
          · rw [if_neg hlen] at h
            cases h

lemma shape_matchP3 {l : List Char} (h : ShapeP3 l) : (matchP3 l).isSome = true := by
  obtain ⟨d, ch, rest, rfl, hd, hdig, hch⟩ := h
  have hdne : ¬(d.isEmpty = true) := by
    cases d with
    | nil => exact absurd rfl hd
    | cons x xs => simp
  simp only [matchP3]
  rw [takeWhile_append_all isDigitCh d _ hdig, dropWhile_append_all isDigitCh d _ hdig]
  cases hpch : isDigitCh ch with
  | false =>
      rw [List.takeWhile_cons, List.dropWhile_cons, hpch]
      simp only [Bool.false_eq_true, if_false, List.append_nil]
      rw [if_neg hdne, if_neg (by simp), List.headD_cons, if_pos hch]
      rfl
  | true =>
      rw [List.takeWhile_cons, List.dropWhile_cons, hpch]
      simp only [if_true]
      have hne2 : ¬((d ++ ch :: rest.takeWhile isDigitCh).isEmpty = true) := by
        cases d with
        | nil => exact absurd rfl hd
        | cons x xs => simp
      have hlen2 : 2 ≤ (d ++ ch :: rest.takeWhile isDigitCh).length := by
        rw [List.length_append, List.length_cons]
        cases d with
        | nil => exact absurd rfl hd
        | cons x xs =>
            rw [List.length_cons]
            omega
      rw [if_neg hne2]
      cases hrw : rest.dropWhile isDigitCh with
      | nil =>
          rw [if_pos List.isEmpty_nil, if_pos hlen2]
          rfl
      | cons c2 r2 =>
          rw [if_neg (by simp), List.headD_cons]
          by_cases hd2 : dotOk c2 = true
          · rw [if_pos hd2]
            rfl
          · rw [if_neg hd2, if_pos hlen2]
            rfl

lemma matchP3_isSome_iff (l : List Char) :
    (matchP3 l).isSome = true ↔ ShapeP3 l :=
  ⟨matchP3_shape, shape_matchP3⟩

lemma trySplit_isSome_iff (cont : List Char → Option (List Char)) (l : List Char) :
    ∀ n, (trySplit cont l n).isSome = true ↔
      ∃ i, 1 ≤ i ∧ i ≤ n ∧ l.getD i 'a' = '_' ∧ (l.take i).all dotOk = true ∧
        (cont (l.drop (i + 1))).isSome = true := by
  intro n
  induction n with
  | zero =>
      simp only [trySplit]
      constructor
      · intro h
        cases h
      · rintro ⟨i, h1, h2, -⟩
        omega
  | succ m ih =>
      simp only [trySplit]
      by_cases hc : ((l.getD (m + 1) 'a' == '_') && (l.take (m + 1)).all dotOk) = true
      · rw [if_pos hc]
        simp only [Bool.and_eq_true, beq_iff_eq] at hc
        by_cases hcont : (cont (l.drop (m + 2))).isSome = true
        · rw [if_pos hcont]
          constructor
          · intro _
            exact ⟨m + 1, by omega, le_refl _, hc.1, hc.2, hcont⟩
          · intro _
            exact hcont
        · have hnone : cont (l.drop (m + 2)) = none := by
            cases hx : cont (l.drop (m + 2)) with
            | none => rfl
            | some v => rw [hx] at hcont; exact absurd rfl hcont
          rw [hnone]
          simp only [Option.isSome_none, Bool.false_eq_true, if_false]
          rw [ih]
          constructor
          · rintro ⟨i, h1, h2, h3, h4, h5⟩
            exact ⟨i, h1, by omega, h3, h4, h5⟩
          · rintro ⟨i, h1, h2, h3, h4, h5⟩
            refine ⟨i, h1, ?_, h3, h4, h5⟩
            rcases Nat.lt_or_ge i (m + 1) with hlt | hge
            · omega
            · exfalso
              have : i = m + 1 := by omega
              subst this
              rw [hnone] at h5
              cases h5
      · rw [if_neg hc]
        simp only [Option.isSome_none, Bool.false_eq_true, if_false]
        rw [ih]
        constructor
        · rintro ⟨i, h1, h2, h3, h4, h5⟩
          exact ⟨i, h1, by omega, h3, h4, h5⟩
        · rintro ⟨i, h1, h2, h3, h4, h5⟩
          refine ⟨i, h1, ?_, h3, h4, h5⟩
          rcases Nat.lt_or_ge i (m + 1) with hlt | hge
          · omega
          · exfalso
            have : i = m + 1 := by omega
            subst this
            apply hc
            simp only [Bool.and_eq_true, beq_iff_eq]
            exact ⟨h3, h4⟩

lemma split_exists_iff (P : List Char → Prop) (l : List Char) :
    (∃ i, 1 ≤ i ∧ i ≤ l.length ∧ l.getD i 'a' = '_' ∧ (l.take i).all dotOk = true ∧
       P (l.drop (i + 1))) ↔
    (∃ a rest, l = a ++ '_' :: rest ∧ a ≠ [] ∧ a.all dotOk = true ∧ P rest) := by
  constructor
  · rintro ⟨i, h1, h2, h3, h4, h5⟩
    have hilt : i < l.length := by
      by_contra hge
      push_neg at hge
      rw [List.getD_eq_default _ _ hge] at h3
      exact absurd h3 (by decide)
    refine ⟨l.take i, l.drop (i + 1), ?_, ?_, h4, h5⟩
    · have hdrop : l.drop i = '_' :: l.drop (i + 1) := by
        rw [List.drop_eq_getElem_cons hilt]
        congr 1
        rw [← List.getD_eq_getElem l 'a' hilt]
        exact h3
      calc l = l.take i ++ l.drop i := (List.take_append_drop i l).symm
        _ = l.take i ++ '_' :: l.drop (i + 1) := by rw [hdrop]
    · intro hnil
      have := congrArg List.length hnil
      rw [List.length_take] at this
      simp only [List.length_nil] at this
      omega
  · rintro ⟨a, rest, rfl, hne, hall, hP⟩
    have hlen : 0 < a.length := List.length_pos.mpr hne
    refine ⟨a.length, by omega, ?_, ?_, ?_, ?_⟩
    · rw [List.length_append, List.length_cons]
      omega
    · rw [List.getD_eq_getD_get?, List.get?_eq_getElem?,
        List.getElem?_append_right (le_refl _)]
      simp
    · rw [List.take_left]
      exact hall
    · have : (a ++ '_' :: rest).drop (a.length + 1) = rest := by
        have h2 : a ++ '_' :: rest = (a ++ ['_']) ++ rest := by
          rw [List.append_assoc]
          rfl
        rw [h2]
        apply List.drop_left'
        rw [List.length_append]
        rfl
      rw [this]
      exact hP

lemma matchP2_isSome_iff (l : List Char) :
    (matchP2 l).isSome = true ↔ ShapeP2 l := by
  unfold matchP2 ShapeP2
  rw [trySplit_isSome_iff matchP3 l l.length,
    split_exists_iff (fun rest => (matchP3 rest).isSome = true) l]
  constructor
  · rintro ⟨c, rest, h1, h2, h3, h4⟩
    exact ⟨c, rest, h1, h2, h3, (matchP3_isSome_iff rest).mp h4⟩
  · rintro ⟨c, rest, h1, h2, h3, h4⟩
    exact ⟨c, rest, h1, h2, h3, (matchP3_isSome_iff rest).mpr h4⟩

lemma matchP1_isSome_iff (l : List Char) :
    (matchP1 l).isSome = true ↔ ShapeP1 l := by
  unfold matchP1 ShapeP1
  rw [trySplit_isSome_iff matchP2 l l.length,
    split_exists_iff (fun rest => (matchP2 rest).isSome = true) l]
  constructor
  · rintro ⟨b, rest, h1, h2, h3, h4⟩
    exact ⟨b, rest, h1, h2, h3, (matchP2_isSome_iff rest).mp h4⟩
  · rintro ⟨b, rest, h1, h2, h3, h4⟩
    exact ⟨b, rest, h1, h2, h3, (matchP2_isSome_iff rest).mpr h4⟩

lemma matchP0_isSome_iff (l : List Char) :
    (matchP0 l).isSome = true ↔ ShapeP0 l := by
  unfold matchP0 ShapeP0
  rw [trySplit_isSome_iff matchP1 l l.length,
    split_exists_iff (fun rest => (matchP1 rest).isSome = true) l]
  constructor
  · rintro ⟨a, rest, h1, h2, h3, h4⟩
    exact ⟨a, rest, h1, h2, h3, (matchP1_isSome_iff rest).mp h4⟩
  · rintro ⟨a, rest, h1, h2, h3, h4⟩
    exact ⟨a, rest, h1, h2, h3, (matchP1_isSome_iff rest).mpr h4⟩

lemma findFrom_isSome_iff : ∀ l : List Char,
    (findFrom l).isSome = true ↔ HasOrphanShape l := by
  intro l
  induction l with
  | nil =>
      simp only [findFrom]
      constructor
      · intro h
        cases h
      · rintro ⟨pre, rest, heq, hS⟩
        obtain ⟨h1, h2⟩ := List.append_eq_nil.mp heq.symm
        subst h2
        have := (matchP0_isSome_iff []).mpr hS
        cases this
  | cons c t ih =>
      simp only [findFrom]
      by_cases hm : (matchP0 (c :: t)).isSome = true
      · rw [if_pos hm]
        constructor
        · intro _
          exact ⟨[], c :: t, rfl, (matchP0_isSome_iff _).mp hm⟩
        · intro _
          exact hm
      · rw [if_neg hm]
        rw [ih]
        constructor
        · rintro ⟨pre, rest, heq, hS⟩
          exact ⟨c :: pre, rest, by rw [heq]; rfl, hS⟩
        · rintro ⟨pre, rest, heq, hS⟩
          cases pre with
          | nil =>
              simp only [List.nil_append] at heq
              subst heq
              exact absurd ((matchP0_isSome_iff _).mpr hS) hm
          | cons p ps =>
              rw [List.cons_append] at heq
              injection heq with h1 h2
              exact ⟨ps, rest, h2, hS⟩

lemma remove_app_file_mem {path : String} {files : List String} (h : path ∈ files) :
    _remove_app_file path files = files.erase path := by
  unfold _remove_app_file os_remove
  rw [if_pos h]
  rfl

lemma remove_app_file_not_mem {path : String} {files : List String} (h : path ∉ files) :
    _remove_app_file path files = files := by
  unfold _remove_app_file os_remove
  rw [if_neg h]
  rfl

lemma sweepStep_nodup {acc : List String} (h : acc.Nodup) (g : String) :
    (sweepStep acc g).Nodup := by
  unfold sweepStep
  by_cases hs : shouldSweep g = true
  · rw [if_pos hs]
    by_cases hg : g ∈ acc
    · rw [remove_app_file_mem hg]
      exact h.erase _
    · rw [remove_app_file_not_mem hg]
      exact h
  · rw [if_neg hs]
    exact h

lemma foldl_sweepStep_eq_filter :
    ∀ (snapshot acc : List String), acc.Nodup →
      snapshot.foldl sweepStep acc =
        acc.filter (fun f => !(shouldSweep f && snapshot.contains f)) := by
  intro snapshot
  induction snapshot with
  | nil =>
      intro acc _
      rw [List.foldl_nil]
      symm
      apply List.filter_eq_self.mpr
      intro x _
      simp
  | cons g t ih =>
      intro acc hnd
      rw [List.foldl_cons, ih _ (sweepStep_nodup hnd g)]
      unfold sweepStep
      by_cases hs : shouldSweep g = true
      · rw [if_pos hs]
        by_cases hg : g ∈ acc
        · rw [remove_app_file_mem hg, hnd.erase_eq_filter g, List.filter_filter]
          apply List.filter_congr
          intro x _
          by_cases hxg : x = g
          · subst hxg
            simp [hs]
          · simp [hxg, List.contains_cons]
        · rw [remove_app_file_not_mem hg]
          apply List.filter_congr
          intro x hx
          have hxg : x ≠ g := fun he => hg (he ▸ hx)
          simp [hxg, List.contains_cons]
      · rw [if_neg hs]
        have hs' : shouldSweep g = false := by
          cases hsg : shouldSweep g
          · rfl
          · exact absurd hsg hs
        apply List.filter_congr
        intro x _
        by_cases hxg : x = g
        · subst hxg
          simp [hs', List.contains_cons]
        · simp [hxg, List.contains_cons]

lemma foldl_sweepStep_self {files : List String} (h : files.Nodup) :
    files.foldl sweepStep files = files.filter (fun f => !shouldSweep f) := by
  rw [foldl_sweepStep_eq_filter files files h]
  apply List.filter_congr
  intro x hx
  have hc : files.contains x = true := by
    simpa using hx
  rw [hc, Bool.and_true]

lemma toList_append (s t : String) : (s ++ t).toList = s.toList ++ t.toList := by
  simp [String.toList]

lemma py_contains_of_isPrefixOf {needle hay : List Char}
    (h : List.isPrefixOf needle hay = true) : py_contains needle hay = true := by
  cases hay with
  | nil =>
      cases needle with
      | nil => rfl
      | cons c t => cases h
  | cons c t =>
      unfold py_contains
      rw [h]
      rfl

lemma owned_of_tag_prefixed (tag rest : String)
    (h : List.isPrefixOf PYREVIT_FILE_PREFIX.toList tag.toList = true) :
    is_pyrevit_data_file (tag ++ rest) = true := by
  unfold is_pyrevit_data_file
  apply py_contains_of_isPrefixOf
  apply List.isPrefixOf_iff_prefix.mpr
  have h1 : PYREVIT_FILE_PREFIX.toList <+: tag.toList :=
    List.isPrefixOf_iff_prefix.mp h
  have h2 : tag.toList <+: (tag ++ rest).toList := by
    rw [toList_append]
    exact ⟨rest.toList, rfl⟩
  exact h1.trans h2

lemma version_tag_not_prefix_of_univ (m : List Char) :
    List.isPrefixOf PYREVIT_FILE_PREFIX.toList
      (PYREVIT_FILE_PREFIX_UNIVERSAL.toList ++ m) = false := by
  cases hp : List.isPrefixOf PYREVIT_FILE_PREFIX.toList
      (PYREVIT_FILE_PREFIX_UNIVERSAL.toList ++ m) with
  | false => rfl
  | true =>
      exfalso
      obtain ⟨tl, htl⟩ := List.isPrefixOf_iff_prefix.mp hp
      have h9 : (PYREVIT_FILE_PREFIX.toList ++ tl).take 9 =
          (PYREVIT_FILE_PREFIX_UNIVERSAL.toList ++ m).take 9 := by
        rw [htl]
      rw [List.take_append_eq_append_take, List.take_append_eq_append_take] at h9
      have h0a : 9 - PYREVIT_FILE_PREFIX.toList.length = 0 := by decide
      have h0b : 9 - PYREVIT_FILE_PREFIX_UNIVERSAL.toList.length = 0 := by decide
      rw [h0a, h0b, List.take_zero, List.take_zero, List.append_nil,
        List.append_nil] at h9
      exact absurd h9 (by decide)

/-- C2: for every scope, identifier and extension, name construction
(`build_name`, realised by `_get_app_file`) returns exactly the rendered
text scope-tag, underscore, identifier, dot, extension; with the full-path
variant joining it to the directory resolved for the scope (`D_universal`
for `Universal`, `D_version` for `VersionShared` and `Instance`); the
resolution is a pure total function of the scope. -/
theorem build_name_renders (s : Scope) (file_id file_ext : String) :
    build_name s file_id file_ext true =
      scope_tag s ++ "_" ++ file_id ++ "." ++ file_ext ∧
    build_name s file_id file_ext false =
      os_path_join (resolve_directory s)
        (scope_tag s ++ "_" ++ file_id ++ "." ++ file_ext) ∧
    resolve_directory Scope.Universal = PYREVIT_APP_DIR ∧
    resolve_directory Scope.VersionShared = PYREVIT_VERSION_APP_DIR ∧
    resolve_directory Scope.Instance = PYREVIT_VERSION_APP_DIR := by
  cases s <;> exact ⟨rfl, rfl, rfl, rfl, rfl⟩

/-- C3 counterexample: a name built for `Universal` scope fails the
ownership check `is_pyrevit_data_file`, because the universal tag does not
contain the version-shared tag `PYREVIT_FILE_PREFIX` as a substring. -/
theorem universal_name_not_owned :
    is_pyrevit_data_file (get_universal_data_file "file_id" "txt" true) = false := by
  decide

/-- C3 amended: names built by `build_name` satisfy `is_pyrevit_data_file`
for the `VersionShared` and `Instance` scopes (their tags contain the
version-shared tag), but not in general for `Universal` scope. -/
theorem owned_check_version_scopes (file_id file_ext : String) :
    is_pyrevit_data_file (build_name Scope.VersionShared file_id file_ext true) = true ∧
    is_pyrevit_data_file (build_name Scope.Instance file_id file_ext true) = true := by
  constructor
  · have h1 : build_name Scope.VersionShared file_id file_ext true =
        PYREVIT_FILE_PREFIX ++ ("_" ++ file_id ++ "." ++ file_ext) := by
      show PYREVIT_FILE_PREFIX ++ "_" ++ file_id ++ "." ++ file_ext =
        PYREVIT_FILE_PREFIX ++ ("_" ++ file_id ++ "." ++ file_ext)
      simp [String.append_assoc]
    rw [h1]
    exact owned_of_tag_prefixed _ _ (by decide)
  · have h1 : build_name Scope.Instance file_id file_ext true =
        PYREVIT_FILE_PREFIX_STAMPED ++ ("_" ++ file_id ++ "." ++ file_ext) := by
      show PYREVIT_FILE_PREFIX_STAMPED ++ "_" ++ file_id ++ "." ++ file_ext =
        PYREVIT_FILE_PREFIX_STAMPED ++ ("_" ++ file_id ++ "." ++ file_ext)
      simp [String.append_assoc]
    rw [h1]
    exact owned_of_tag_prefixed _ _ (by decide)

/-- C9: `list_data_files` with the universal flag enumerates the universal
directory but filters by the version-shared tag `PYREVIT_FILE_PREFIX`, not
by the universal tag; and no name produced by `get_universal_data_file`
starts with the version-shared tag, so such names are only included if they
start with that tag — which never happens. -/
theorem list_data_files_universal_uses_version_tag
    (file_ext : String) (files : List String) (v : Option (List String)) :
    (list_data_files file_ext true ⟨some files, v⟩ =
      Except.ok ((files.filter
        (fun f => py_startswith f PYREVIT_FILE_PREFIX && py_endswith f file_ext)).map
          (os_path_join PYREVIT_APP_DIR))) ∧
    (∀ file_id ext2,
      py_startswith (get_universal_data_file file_id ext2 true)
        PYREVIT_FILE_PREFIX = false) := by
  constructor
  · rfl
  · intro file_id ext2
    show List.isPrefixOf PYREVIT_FILE_PREFIX.toList
      (PYREVIT_FILE_PREFIX_UNIVERSAL ++ "_" ++ file_id ++ "." ++ ext2).toList = false
    have hgrp : PYREVIT_FILE_PREFIX_UNIVERSAL ++ "_" ++ file_id ++ "." ++ ext2
        = PYREVIT_FILE_PREFIX_UNIVERSAL ++ ("_" ++ file_id ++ "." ++ ext2) := by
      simp [String.append_assoc]
    rw [hgrp, toList_append]
    exact version_tag_not_prefix_of_univ _

/-- C4 counterexample: with extension `tmp`, an entry whose name merely ends
in the characters `atmp` (no dot before the extension) is returned by the
listing, contradicting the claim that only names ending in dot-extension
are included. -/
theorem list_files_dotless_extension_match :
    list_data_files "tmp" false ⟨some [], some ["pyrevit_2016_eirannejad_xatmp"]⟩ =
      Except.ok [os_path_join PYREVIT_VERSION_APP_DIR "pyrevit_2016_eirannejad_xatmp"] ∧
    py_endswith "pyrevit_2016_eirannejad_xatmp" ("." ++ "tmp") = false := by
  exact ⟨rfl, by decide⟩

/-- C4 amended: for every tag, extension and both directory selections
(Universal with the flag true, the combined VersionShared/Instance
directory with the flag false), `_list_app_files` returns exactly the
entries of the selected directory that start with the given tag and end
with the extension text itself — the dot is not required, so a name ending
in `atmp` matches the extension `tmp`.  The tag the public listers pass is
`PYREVIT_FILE_PREFIX` for both directories (`list_data_files`, even for the
universal one) and `PYREVIT_FILE_PREFIX_STAMPED` for the session listing. -/
theorem list_app_files_characterization (tag file_ext : String)
    (ufiles vfiles : List String) (universal : Bool) (l : List String) (p : String)
    (h : _list_app_files tag file_ext universal ⟨some ufiles, some vfiles⟩ =
      Except.ok l) :
    (p ∈ l ↔ ∃ f, f ∈ (if universal then ufiles else vfiles) ∧
      py_startswith f tag = true ∧ py_endswith f file_ext = true ∧
      p = os_path_join
        (if universal then PYREVIT_APP_DIR else PYREVIT_VERSION_APP_DIR) f) ∧
    (∀ st, list_data_files file_ext universal st =
      _list_app_files PYREVIT_FILE_PREFIX file_ext universal st) ∧
    (∀ st, list_session_data_files file_ext st =
      _list_app_files PYREVIT_FILE_PREFIX_STAMPED file_ext false st) := by
  refine ⟨?_, fun _ => rfl, fun _ => rfl⟩
  cases universal
  · have hne : ¬(false = true) := by decide
    simp only [if_neg hne]
    have hl : Except.ok ((vfiles.filter
        (fun f => py_startswith f tag && py_endswith f file_ext)).map
          (os_path_join PYREVIT_VERSION_APP_DIR)) = Except.ok l := h
    injection hl with hl2
    subst hl2
    simp only [List.mem_map, List.mem_filter, Bool.and_eq_true]
    constructor
    · rintro ⟨f, ⟨hf, hs, he⟩, rfl⟩
      exact ⟨f, hf, hs, he, rfl⟩
    · rintro ⟨f, hf, hs, he, rfl⟩
      exact ⟨f, ⟨hf, hs, he⟩, rfl⟩
  · have hyes : (true = true) := rfl
    simp only [if_pos hyes]
    have hl : Except.ok ((ufiles.filter
        (fun f => py_startswith f tag && py_endswith f file_ext)).map
          (os_path_join PYREVIT_APP_DIR)) = Except.ok l := h
    injection hl with hl2
    subst hl2
    simp only [List.mem_map, List.mem_filter, Bool.and_eq_true]
    constructor
    · rintro ⟨f, ⟨hf, hs, he⟩, rfl⟩
      exact ⟨f, hf, hs, he, rfl⟩
    · rintro ⟨f, hf, hs, he, rfl⟩
      exact ⟨f, ⟨hf, hs, he⟩, rfl⟩

theorem list_app_files_characterization_witness :
    os_path_join PYREVIT_APP_DIR "pyrevit_2016_eirannejad_xatmp" ∈
      [os_path_join PYREVIT_APP_DIR "pyrevit_2016_eirannejad_xatmp"] :=
  ((list_app_files_characterization PYREVIT_FILE_PREFIX "tmp"
      ["pyrevit_2016_eirannejad_xatmp"] [] true
      [os_path_join PYREVIT_APP_DIR "pyrevit_2016_eirannejad_xatmp"]
      (os_path_join PYREVIT_APP_DIR "pyrevit_2016_eirannejad_xatmp")
      rfl).1).mpr
    ⟨"pyrevit_2016_eirannejad_xatmp", by decide, by decide, by decide, rfl⟩

/-- C5 counterexample: listing with a missing version directory propagates
the filesystem error to the caller instead of returning an empty list. -/
theorem list_files_missing_dir_raises :
    list_data_files "tmp" false ⟨some [], none⟩ = Except.error FILE_NOT_FOUND := rfl

/-- C5 amended: deletion errors are swallowed — `_remove_app_file` on a path
that does not exist completes and leaves the directory unchanged, and the
sweep on an existing directory always completes — but listing errors are not
caught: `_list_app_files` on a missing directory propagates the error. -/
theorem remove_swallows_list_raises (path : String) (files : List String)
    (h : path ∉ files) :
    _remove_app_file path files = files ∧
    (∀ tag file_ext u, _list_app_files tag file_ext false ⟨u, none⟩ =
      Except.error FILE_NOT_FOUND) ∧
    (∀ tag file_ext v, _list_app_files tag file_ext true ⟨none, v⟩ =
      Except.error FILE_NOT_FOUND) ∧
    (∀ u fls, ∃ st', cleanup_appdata_folder true ⟨u, some fls⟩ = Except.ok st') := by
  refine ⟨remove_app_file_not_mem h, fun _ _ _ => rfl, fun _ _ _ => rfl,
    fun u fls => ⟨_, rfl⟩⟩

theorem remove_swallows_list_raises_witness :
    _remove_app_file "ghost.tmp" [] = [] :=
  (remove_swallows_list_raises "ghost.tmp" [] (by decide)).1

/-- C6: the sweep does nothing at all when the first-load signal is false,
and in every case it leaves the universal directory untouched — only the
version directory is cleaned. -/
theorem cleanup_gated_and_version_only :
    (∀ st, cleanup_appdata_folder false st = Except.ok st) ∧
    (∀ fl st st', cleanup_appdata_folder fl st = Except.ok st' →
      st'.univ_dir = st.univ_dir) := by
  constructor
  · intro st
    rfl
  · intro fl st st' h
    obtain ⟨ud, vd⟩ := st
    cases fl
    · have h2 : Except.ok (⟨ud, vd⟩ : AppDataState) = Except.ok st' := h
      injection h2 with h3
      rw [← h3]
    · cases vd with
      | none => exact Except.noConfusion h
      | some files =>
          have h2 : Except.ok (⟨ud, some (files.foldl sweepStep files)⟩ :
              AppDataState) = Except.ok st' := h
          injection h2 with h3
          rw [← h3]

theorem cleanup_gated_and_version_only_witness :
    AppDataState.univ_dir ⟨some ["u.bin"], some []⟩ =
      AppDataState.univ_dir ⟨some ["u.bin"], some ["a_b_c_9.tmp"]⟩ :=
  cleanup_gated_and_version_only.2 true ⟨some ["u.bin"], some ["a_b_c_9.tmp"]⟩
    ⟨some ["u.bin"], some []⟩ rfl

/-- C7: the sweep is idempotent — running it again on the state left by a
first run (which removed every matching orphan) deletes nothing and
completes without error. -/
theorem cleanup_idempotent (st st' : AppDataState) (files : List String)
    (hv : st.ver_dir = some files) (hnd : files.Nodup)
    (h : cleanup_appdata_folder true st = Except.ok st') :
    cleanup_appdata_folder true st' = Except.ok st' := by
  obtain ⟨ud, vd⟩ := st
  simp only at hv
  subst hv
  have hstep : cleanup_appdata_folder true ⟨ud, some files⟩ =
      Except.ok ⟨ud, some (files.foldl sweepStep files)⟩ := rfl
  rw [hstep] at h
  injection h with h1
  subst h1
  rw [foldl_sweepStep_self hnd]
  have hnd2 : (files.filter (fun f => !shouldSweep f)).Nodup := hnd.filter _
  have hstep2 : cleanup_appdata_folder true
      ⟨ud, some (files.filter (fun f => !shouldSweep f))⟩ =
      Except.ok ⟨ud, some ((files.filter (fun f => !shouldSweep f)).foldl
        sweepStep (files.filter (fun f => !shouldSweep f)))⟩ := rfl
  rw [hstep2, foldl_sweepStep_self hnd2]
  have hidem : (files.filter (fun f => !shouldSweep f)).filter
      (fun f => !shouldSweep f) = files.filter (fun f => !shouldSweep f) :=
    List.filter_eq_self.mpr (fun x hx => (List.mem_filter.mp hx).2)
  rw [hidem]

theorem cleanup_idempotent_witness :
    cleanup_appdata_folder true ⟨none, some ([] : List String)⟩ =
      Except.ok ⟨none, some ([] : List String)⟩ :=
  cleanup_idempotent ⟨none, some ["app_ver_owner_17.tmp"]⟩ ⟨none, some []⟩
    ["app_ver_owner_17.tmp"] rfl (by decide) rfl

/-- C1: the sweep removes precisely the version-directory entries that the
4-group pattern matches somewhere (three nonempty newline-free groups, an
underscore before each of the last two and before the digit run, then at
least one trailing character), whose first-match stamp group has integer
value greater than zero, and whose name ends with the temporary extension
characters; on the five-file example directory only `app_ver_owner_17.tmp`
is removed. -/
theorem sweep_removes_iff (u : Option (List String)) :
    (∀ files, files.Nodup →
      cleanup_appdata_folder true ⟨u, some files⟩ =
        Except.ok ⟨u, some (files.filter (fun f => !shouldSweep f))⟩) ∧
    (∀ f : String, shouldSweep f = true ↔
      (HasOrphanShape f.toList ∧
       0 < digitsVal ((findFrom f.toList).getD []) ∧
       py_endswith f TEMP_FILE_EXT = true)) ∧
    cleanup_appdata_folder true
        ⟨u, some ["app_ver_owner_17.tmp", "app_ver_owner_0.tmp",
          "app_ver_owner_abc.tmp", "app_ver_owner_5.keep", "somefile.txt"]⟩ =
      Except.ok ⟨u, some ["app_ver_owner_0.tmp", "app_ver_owner_abc.tmp",
        "app_ver_owner_5.keep", "somefile.txt"]⟩ := by
  refine ⟨?_, ?_, ?_⟩
  · intro files hnd
    have hstep : cleanup_appdata_folder true ⟨u, some files⟩ =
        Except.ok ⟨u, some (files.foldl sweepStep files)⟩ := rfl
    rw [hstep, foldl_sweepStep_self hnd]
  · intro f
    unfold shouldSweep
    constructor
    · intro h
      simp only [Bool.and_eq_true, decide_eq_true_eq] at h
      exact ⟨(findFrom_isSome_iff f.toList).mp h.1.1, h.1.2, h.2⟩
    · rintro ⟨hshape, hv, he⟩
      simp only [Bool.and_eq_true, decide_eq_true_eq]
      exact ⟨⟨(findFrom_isSome_iff f.toList).mpr hshape, hv⟩, he⟩
  · rfl

theorem sweep_removes_iff_witness :
    cleanup_appdata_folder true
        ⟨(none : Option (List String)), some ["app_ver_owner_17.tmp"]⟩ =
      Except.ok ⟨none, some (["app_ver_owner_17.tmp"].filter
        (fun f => !shouldSweep f))⟩ :=
  (sweep_removes_iff none).1 ["app_ver_owner_17.tmp"] (by decide)

/-- C8 counterexample: name construction does not fail fast — it accepts an
empty identifier and a separator-containing identifier and returns the
rendered name in both cases. -/
theorem build_name_accepts_bad_input :
    _get_app_file "" "tmp" true false false = "pyrevit_2016_eirannejad_.tmp" ∧
    _get_app_file "a/b" "tmp" true false false =
      "pyrevit_2016_eirannejad_a/b.tmp" := by
  exact ⟨rfl, rfl⟩

/-- C8 amended: name construction performs no validation and cannot fail:
for empty or separator-containing identifiers it still returns the rendered
tag-underscore-identifier-dot-extension text, and a separator in the
identifier leaks into the produced file name. -/
theorem build_name_no_validation (s : Scope) (file_id file_ext : String)
    (hbad : file_id = "" ∨ '/' ∈ file_id.toList) :
    build_name s file_id file_ext true =
      scope_tag s ++ "_" ++ file_id ++ "." ++ file_ext ∧
    ('/' ∈ file_id.toList →
      '/' ∈ (build_name s file_id file_ext true).toList) := by
  have h1 : build_name s file_id file_ext true =
      scope_tag s ++ "_" ++ file_id ++ "." ++ file_ext := by
    cases s <;> rfl
  refine ⟨h1, ?_⟩
  intro hsep
  rw [h1]
  have h2 : (scope_tag s ++ "_" ++ file_id ++ "." ++ file_ext).toList =
      ((scope_tag s ++ "_").toList ++ file_id.toList) ++
        ("." ++ file_ext).toList := by
    have : scope_tag s ++ "_" ++ file_id ++ "." ++ file_ext =
        ((scope_tag s ++ "_") ++ file_id) ++ ("." ++ file_ext) := by
      simp [String.append_assoc]
    rw [this, toList_append, toList_append]
  rw [h2]
  rw [List.mem_append, List.mem_append]
  exact Or.inl (Or.inr hsep)

theorem build_name_no_validation_witness :
    build_name Scope.VersionShared "a/b" "tmp" true =
      scope_tag Scope.VersionShared ++ "_" ++ "a/b" ++ "." ++ "tmp" ∧
    ('/' ∈ ("a/b" : String).toList →
      '/' ∈ (build_name Scope.VersionShared "a/b" "tmp" true).toList) :=
  build_name_no_validation Scope.VersionShared "a/b" "tmp" (Or.inr (by decide))

/-- C10 counterexample: `_a_b_7tmp` contains three underscores, has an
underscore immediately followed by a digit and at least one further
character, the digit run has value 7 which is positive, and the name ends
with the temporary-extension characters — yet the pattern does not match it
(its first group would be empty) and the sweep leaves it in place. -/
theorem five_part_claim_counterexample :
    "_a_b_7tmp".toList.count '_' = 3 ∧
    "_a_b_7tmp".toList.getD 4 ' ' = '_' ∧
    isDigitCh ("_a_b_7tmp".toList.getD 5 ' ') = true ∧
    "_a_b_7tmp".toList.length = 9 ∧
    digitsVal ['7'] = 7 ∧
    py_endswith "_a_b_7tmp" TEMP_FILE_EXT = true ∧
    shouldSweep "_a_b_7tmp" = false ∧
    cleanup_appdata_folder true ⟨none, some ["_a_b_7tmp"]⟩ =
      Except.ok ⟨none, some ["_a_b_7tmp"]⟩ := by
  exact ⟨by decide, by decide, by decide, by decide, by decide, by decide,
    by decide, rfl⟩

/-- C10 amended: the sweep is indeed not restricted to exactly four
underscore-separated segments, but the correct matching condition is the
pattern shape: three nonempty newline-free groups each followed by an
underscore (the groups may themselves contain underscores, so a
five-segment name still matches), then a digit run and at least one more
character; when additionally the first-match stamp is positive and the name
ends with the temporary-extension characters, the file is removed — in
particular `app_ver_owner_extra_17.tmp` is deleted. -/
theorem orphan_shape_swept (f : String)
    (hshape : HasOrphanShape f.toList)
    (hstamp : 0 < digitsVal ((findFrom f.toList).getD []))
    (hext : py_endswith f TEMP_FILE_EXT = true) :
    shouldSweep f = true ∧
    cleanup_appdata_folder true ⟨none, some ["app_ver_owner_extra_17.tmp"]⟩ =
      Except.ok ⟨none, some []⟩ := by
  constructor
  · unfold shouldSweep
    simp only [Bool.and_eq_true, decide_eq_true_eq]
    exact ⟨⟨(findFrom_isSome_iff f.toList).mpr hshape, hstamp⟩, hext⟩
  · rfl

theorem orphan_shape_swept_witness :
    shouldSweep "app_ver_owner_extra_17.tmp" = true ∧
    cleanup_appdata_folder true ⟨none, some ["app_ver_owner_extra_17.tmp"]⟩ =
      Except.ok ⟨none, some []⟩ :=
  orphan_shape_swept "app_ver_owner_extra_17.tmp"
    ⟨[], "app_ver_owner_extra_17.tmp".toList, rfl,
      "app_ver".toList, "owner_extra_17.tmp".toList, by decide, by decide, by decide,
      "owner".toList, "extra_17.tmp".toList, by decide, by decide, by decide,
      "extra".toList, "17.tmp".toList, by decide, by decide, by decide,
      ['1', '7'], '.', "tmp".toList, by decide, by decide, by decide, by decide⟩
    (by decide) (by decide)
